import Mathlib

/-!
# BioSED numeric kernels: a shallow embedding

This file embeds the two numeric kernels of the BioSED repository
(`src/biosed/_cpp/center_of_mass.cpp` and
`src/biosed/_cpp/crown_integration.cpp`) and proves the specified
properties about them.

Modelling conventions:
* a stack of `int16` detector frames is a function
  `Fin nImages → Fin nQY → Fin nQX → ℤ` (the C++ buffer holds `int16_t`
  samples; values are integers);
* the C++ `double` accumulators only ever hold sums and products of the
  integer samples and integer pixel indices, so they are modelled by exact
  integer arithmetic, and the final divisions by exact rational division;
* the polar geometry (`sqrt`, `atan2`, `M_PI`) is modelled over the real
  numbers;
* the argument-validation code at the top of each entry point is modelled
  by explicit `Except` values over the error taxonomy.
-/

namespace BioSED

/-- One detector frame: an `nQY × nQX` grid of (int16) samples. -/
def Image (nQY nQX : ℕ) : Type := Fin nQY → Fin nQX → ℤ

/-! ## center_of_mass.cpp

`compute_centers_of_mass` walks every image; per image it walks pixels in
row-major order, skips pixels strictly below the threshold, and accumulates
`sumQY += pixel * indexQY`, `sumQX += pixel * indexQX`,
`totalSum += pixel`.  The nested loops are embedded as nested left folds
over `List.finRange`, with the same skip condition and accumulation order
as the source. -/

/-- The inner (per-pixel) step of the centre-of-mass loop: the accumulated
triple is `(sumQY, sumQX, totalSum)`; a pixel strictly below the threshold
is skipped (`if (pixel < threshold) continue;`). -/
def comStep {nQY nQX : ℕ} (img : Image nQY nQX) (threshold : ℤ)
    (iQY : Fin nQY) (acc : ℤ × ℤ × ℤ) (iQX : Fin nQX) : ℤ × ℤ × ℤ :=
  if img iQY iQX < threshold then acc
  else (acc.1 + img iQY iQX * iQY, acc.2.1 + img iQY iQX * iQX,
        acc.2.2 + img iQY iQX)

/-- The per-image accumulation loop of `compute_centers_of_mass`: row-major
double loop starting from `(0, 0, 0)`. -/
def comAccum {nQY nQX : ℕ} (img : Image nQY nQX) (threshold : ℤ) :
    ℤ × ℤ × ℤ :=
  (List.finRange nQY).foldl
    (fun acc iQY => (List.finRange nQX).foldl (comStep img threshold iQY) acc)
    (0, 0, 0)

/-- `compute_centers_of_mass`: per image, if the accumulated total is zero
the sentinel `(-1, -1)` is written, otherwise `(sumQY/total, sumQX/total)`.
The output row for image `i` is a pair of (exact) rationals. -/
def compute_centers_of_mass {nImages nQY nQX : ℕ}
    (stack : Fin nImages → Image nQY nQX) (threshold : ℤ)
    (i : Fin nImages) : ℚ × ℚ :=
  let acc := comAccum (stack i) threshold
  if acc.2.2 = 0 then (-1, -1)
  else ((acc.1 : ℚ) / (acc.2.2 : ℚ), (acc.2.1 : ℚ) / (acc.2.2 : ℚ))

/-! ### Loop-to-sum characterisation -/

/-- One inner row of the centre-of-mass loop adds, componentwise, the sums
of the per-pixel contributions of that row. -/
lemma comAccum_inner {nQY nQX : ℕ} (img : Image nQY nQX) (threshold : ℤ)
    (iQY : Fin nQY) (xs : List (Fin nQX)) (acc : ℤ × ℤ × ℤ) :
    xs.foldl (comStep img threshold iQY) acc =
      (acc.1 + (xs.map (fun x =>
          if threshold ≤ img iQY x then img iQY x * (iQY : ℤ) else 0)).sum,
       acc.2.1 + (xs.map (fun x =>
          if threshold ≤ img iQY x then img iQY x * (x : ℤ) else 0)).sum,
       acc.2.2 + (xs.map (fun x =>
          if threshold ≤ img iQY x then img iQY x else 0)).sum) := by
  induction xs generalizing acc with
  | nil => simp
  | cons x xs ih =>
    rw [List.foldl_cons, ih]
    rcases acc with ⟨a, b, c⟩
    by_cases h : img iQY x < threshold
    · simp [comStep, h, not_le.mpr h]
    · rw [not_lt] at h
      simp only [comStep, if_neg (not_lt.mpr h), List.map_cons, List.sum_cons,
        if_pos h]
      refine Prod.ext ?_ (Prod.ext ?_ ?_) <;> simp <;> ring

/-- The full per-image loop computes, componentwise, the double sums of the
per-pixel contributions. -/
lemma comAccum_eq_sum {nQY nQX : ℕ} (img : Image nQY nQX) (threshold : ℤ) :
    comAccum img threshold =
      (∑ y : Fin nQY, ∑ x : Fin nQX,
          if threshold ≤ img y x then img y x * (y : ℤ) else 0,
       ∑ y : Fin nQY, ∑ x : Fin nQX,
          if threshold ≤ img y x then img y x * (x : ℤ) else 0,
       ∑ y : Fin nQY, ∑ x : Fin nQX,
          if threshold ≤ img y x then img y x else 0) := by
  have main : ∀ (ys : List (Fin nQY)) (acc : ℤ × ℤ × ℤ),
      ys.foldl (fun acc iQY =>
        (List.finRange nQX).foldl (comStep img threshold iQY) acc) acc =
      (acc.1 + (ys.map (fun y => ∑ x : Fin nQX,
          if threshold ≤ img y x then img y x * (y : ℤ) else 0)).sum,
       acc.2.1 + (ys.map (fun y => ∑ x : Fin nQX,
          if threshold ≤ img y x then img y x * (x : ℤ) else 0)).sum,
       acc.2.2 + (ys.map (fun y => ∑ x : Fin nQX,
          if threshold ≤ img y x then img y x else 0)).sum) := by
    intro ys
    induction ys with
    | nil => intro acc; simp
    | cons y ys ih =>
      intro acc
      rw [List.foldl_cons, ih, comAccum_inner]
      simp only [List.map_cons, List.sum_cons, Fin.sum_univ_def]
      refine Prod.ext ?_ (Prod.ext ?_ ?_) <;> simp <;> ring
  have h := main (List.finRange nQY) (0, 0, 0)
  rw [comAccum, h]
  simp [Fin.sum_univ_def]

/-! ## crown_integration.cpp — the accumulation pass

`compute_crown_integral` first fills per-pixel geometry arrays
(`pixelsQ`, `pixelsPhi`, `validPixels`, `binIndicies`) and then, per image,
accumulates sums and counts into per-bin vectors freshly created for that
image.  The precomputed geometry arrays are modelled by a `PolarGeometry`
record, and the per-image accumulation by nested folds that mirror the
source loops (skip invalid pixel, skip negative sample, add the sample to
the pixel's bin and bump its count). -/

/-- The precomputed per-pixel geometry arrays that the accumulation pass of
`compute_crown_integral` reads: the validity mask `validPixels` and the bin
assignment `binIndicies`. -/
structure PolarGeometry (nQY nQX : ℕ) where
  valid : Fin nQY → Fin nQX → Bool
  binIndex : Fin nQY → Fin nQX → ℤ

/-- The inner (per-pixel) step of the accumulation loop of
`compute_crown_integral`.  The state is the pair
`(phiBinsSum, pixelCount)` of bin-indexed accumulators:
`if(!validPixels) continue; if(sample < 0) continue;` then add the sample
to `phiBinsSum[binIndicies]` and increment `pixelCount[binIndicies]`. -/
def crownStep {nQY nQX : ℕ} (geom : PolarGeometry nQY nQX)
    (img : Image nQY nQX) (iQY : Fin nQY)
    (acc : (ℤ → ℤ) × (ℤ → ℕ)) (iQX : Fin nQX) : (ℤ → ℤ) × (ℤ → ℕ) :=
  if geom.valid iQY iQX = false then acc
  else if img iQY iQX < 0 then acc
  else (Function.update acc.1 (geom.binIndex iQY iQX)
          (acc.1 (geom.binIndex iQY iQX) + img iQY iQX),
        Function.update acc.2 (geom.binIndex iQY iQX)
          (acc.2 (geom.binIndex iQY iQX) + 1))

/-- The per-image accumulation loop of `compute_crown_integral`:
`phiBinsSum` and `pixelCount` start from all-zero vectors constructed
freshly for the image, then the row-major pixel sweep runs. -/
def crownAccum {nQY nQX : ℕ} (geom : PolarGeometry nQY nQX)
    (img : Image nQY nQX) : (ℤ → ℤ) × (ℤ → ℕ) :=
  (List.finRange nQY).foldl
    (fun acc iQY => (List.finRange nQX).foldl (crownStep geom img iQY) acc)
    (fun _ => 0, fun _ => 0)

/-- The averaging pass over one stack: the output row of image `i` is `0.0`
for every bin (the initialisation loop), overwritten with
`phiBinsSum[bin] / pixelCount[bin]` for each bin with a positive count. -/
def integrateStack {nImages nQY nQX : ℕ} (geom : PolarGeometry nQY nQX)
    (stack : Fin nImages → Image nQY nQX) (i : Fin nImages) (b : ℤ) : ℚ :=
  let acc := crownAccum geom (stack i)
  if 0 < acc.2 b then (acc.1 b : ℚ) / (acc.2 b : ℚ) else 0

/-! ### Loop-to-sum characterisation of the accumulation pass -/

/-- Pointwise effect of one inner row of the accumulation loop on the
bin-`b` sum and count. -/
lemma crownAccum_inner {nQY nQX : ℕ} (geom : PolarGeometry nQY nQX)
    (img : Image nQY nQX) (iQY : Fin nQY) (xs : List (Fin nQX))
    (acc : (ℤ → ℤ) × (ℤ → ℕ)) (b : ℤ) :
    (xs.foldl (crownStep geom img iQY) acc).1 b =
      acc.1 b + (xs.map (fun x =>
        if geom.valid iQY x = true ∧ 0 ≤ img iQY x ∧ geom.binIndex iQY x = b
        then img iQY x else 0)).sum ∧
    (xs.foldl (crownStep geom img iQY) acc).2 b =
      acc.2 b + (xs.map (fun x =>
        if geom.valid iQY x = true ∧ 0 ≤ img iQY x ∧ geom.binIndex iQY x = b
        then 1 else 0)).sum := by
  induction xs generalizing acc with
  | nil => simp
  | cons x xs ih =>
    rw [List.foldl_cons]
    rcases ih (crownStep geom img iQY acc x) with ⟨ih1, ih2⟩
    rw [ih1, ih2]
    by_cases hv : geom.valid iQY x = true
    · by_cases hp : img iQY x < 0
      · have : ¬ (0 : ℤ) ≤ img iQY x := not_le.mpr hp
        constructor <;>
          simp [crownStep, hv, hp, this]
      · rw [not_lt] at hp
        by_cases hb : geom.binIndex iQY x = b
        · subst hb
          constructor <;>
            simp [crownStep, hv, not_lt.mpr hp, hp, Function.update_same] <;>
            ring
        · constructor <;>
            simp [crownStep, hv, not_lt.mpr hp, hp, hb,
              Function.update_noteq (by simpa [eq_comm] using hb)]
    · have hv' : geom.valid iQY x = false := by
        simpa using hv
      constructor <;> simp [crownStep, hv', hv]

/-- The per-image accumulation loop computes, at every bin `b`, the double
sum of the contributing samples and the number of contributing pixels. -/
lemma crownAccum_eq_sum {nQY nQX : ℕ} (geom : PolarGeometry nQY nQX)
    (img : Image nQY nQX) (b : ℤ) :
    (crownAccum geom img).1 b =
      (∑ y : Fin nQY, ∑ x : Fin nQX,
        if geom.valid y x = true ∧ 0 ≤ img y x ∧ geom.binIndex y x = b
        then img y x else 0) ∧
    (crownAccum geom img).2 b =
      (∑ y : Fin nQY, ∑ x : Fin nQX,
        if geom.valid y x = true ∧ 0 ≤ img y x ∧ geom.binIndex y x = b
        then 1 else 0) := by
  have main : ∀ (ys : List (Fin nQY)) (acc : (ℤ → ℤ) × (ℤ → ℕ)),
      (ys.foldl (fun acc iQY =>
          (List.finRange nQX).foldl (crownStep geom img iQY) acc) acc).1 b =
        acc.1 b + (ys.map (fun y => ∑ x : Fin nQX,
          if geom.valid y x = true ∧ 0 ≤ img y x ∧ geom.binIndex y x = b
          then img y x else 0)).sum ∧
      (ys.foldl (fun acc iQY =>
          (List.finRange nQX).foldl (crownStep geom img iQY) acc) acc).2 b =
        acc.2 b + (ys.map (fun y => ∑ x : Fin nQX,
          if geom.valid y x = true ∧ 0 ≤ img y x ∧ geom.binIndex y x = b
          then 1 else 0)).sum := by
    intro ys
    induction ys with
    | nil => intro acc; simp
    | cons y ys ih =>
      intro acc
      rw [List.foldl_cons]
      rcases ih ((List.finRange nQX).foldl (crownStep geom img y) acc) with
        ⟨ih1, ih2⟩
      rcases crownAccum_inner geom img y (List.finRange nQX) acc b with
        ⟨h1, h2⟩
      rw [ih1, ih2, h1, h2]
      simp only [List.map_cons, List.sum_cons, Fin.sum_univ_def]
      constructor <;> ring
  rcases main (List.finRange nQY) (fun _ => 0, fun _ => 0) with ⟨h1, h2⟩
  rw [crownAccum]
  rw [h1, h2]
  simp [Fin.sum_univ_def]

/-! ## crown_integration.cpp — the geometry pass

The first loop of `compute_crown_integral` fills, for every pixel, the
radius `pixelsQ`, the azimuthal angle `pixelsPhi` (degrees, wrapped into
`[0, 360)`), the validity mask `validPixels` and the bin assignment
`binIndicies`.  The floating-point math (`std::sqrt`, `std::atan2`,
`M_PI`) is modelled over the real numbers. -/

/-- Beam centre row: `static_cast<int>(nQY / 2)` — truncating integer
division of the nonnegative extent. -/
def beamCenterQY (nQY : ℕ) : ℕ := nQY / 2

/-- Beam centre column: `static_cast<int>(nQX / 2)`. -/
def beamCenterQX (nQX : ℕ) : ℕ := nQX / 2

/-- `std::atan2(y, x)`: the angle of the point `(x, y)`, in `(-π, π]`
(`Complex.arg` of the complex number with real part `x` and imaginary
part `y`). -/
noncomputable def atan2 (y x : ℝ) : ℝ := Complex.arg ⟨x, y⟩

/-- Radius of a pixel: `sqrt(QY*QY + QX*QX) * qCallibration` where
`QY = iQY - beamCenterQY`, `QX = iQX - beamCenterQX`. -/
noncomputable def pixelsQ (nQY nQX : ℕ) (qCallibration : ℝ)
    (iQY iQX : ℕ) : ℝ :=
  let QY : ℤ := (iQY : ℤ) - (beamCenterQY nQY : ℤ)
  let QX : ℤ := (iQX : ℤ) - (beamCenterQX nQX : ℤ)
  Real.sqrt ((QY * QY + QX * QX : ℤ) : ℝ) * qCallibration

/-- Azimuthal angle of a pixel before wrapping:
`atan2(QY, QX) * 180.0 / M_PI`. -/
noncomputable def pixelsPhiRaw (nQY nQX : ℕ) (iQY iQX : ℕ) : ℝ :=
  let QY : ℤ := (iQY : ℤ) - (beamCenterQY nQY : ℤ)
  let QX : ℤ := (iQX : ℤ) - (beamCenterQX nQX : ℤ)
  atan2 (QY : ℝ) (QX : ℝ) * 180 / Real.pi

/-- Azimuthal angle of a pixel: the raw angle, plus `360` if it is
negative (`if (pixelsPhi < 0) pixelsPhi += 360.0;`). -/
noncomputable def pixelsPhi (nQY nQX : ℕ) (iQY iQX : ℕ) : ℝ :=
  if pixelsPhiRaw nQY nQX iQY iQX < 0 then pixelsPhiRaw nQY nQX iQY iQX + 360
  else pixelsPhiRaw nQY nQX iQY iQX

open scoped Classical in
/-- Validity mask:
`(pixelsQ >= qMin) && (pixelsQ <= qMax)` for `QRange = (qMin, qMax)`. -/
noncomputable def validPixels (nQY nQX : ℕ) (qCallibration : ℝ)
    (QRange : ℝ × ℝ) (iQY iQX : ℕ) : Bool :=
  decide (QRange.1 ≤ pixelsQ nQY nQX qCallibration iQY iQX ∧
          pixelsQ nQY nQX qCallibration iQY iQX ≤ QRange.2)

/-- C-style truncation toward zero of a `double` to an `int`
(`static_cast<int>`). -/
noncomputable def realTrunc (r : ℝ) : ℤ := if 0 ≤ r then ⌊r⌋ else ⌈r⌉

/-- `std::clamp(v, lo, hi)`: `lo` if `v < lo`, else `hi` if `hi < v`,
else `v`. -/
def stdClamp (v lo hi : ℤ) : ℤ := if v < lo then lo else if hi < v then hi else v

/-- Bin assignment of a pixel:
`static_cast<int>(pixelsPhi / (360.0 / nPhiBins))`, clamped into
`[0, nPhiBins - 1]`.  (The source computes it only where the pixel is
valid and the accumulation pass only reads it there; the same formula is
used for every pixel here.) -/
noncomputable def binIndicies (nQY nQX : ℕ) (nPhiBins : ℤ)
    (iQY iQX : ℕ) : ℤ :=
  stdClamp (realTrunc (pixelsPhi nQY nQX iQY iQX / (360 / (nPhiBins : ℝ))))
    0 (nPhiBins - 1)

/-- The geometry pass of `compute_crown_integral`: the precomputed
validity mask and bin assignment read by the accumulation pass. -/
noncomputable def buildGeometry (nQY nQX : ℕ) (nPhiBins : ℤ)
    (QRange : ℝ × ℝ) (qCallibration : ℝ) : PolarGeometry nQY nQX where
  valid := fun y x => validPixels nQY nQX qCallibration QRange y x
  binIndex := fun y x => binIndicies nQY nQX nPhiBins y x

/-- The whole of `compute_crown_integral` on a (3-dimensional,
shape-checked) stack: geometry pass followed by per-image accumulation
and averaging. -/
noncomputable def compute_crown_integral {nImages nQY nQX : ℕ}
    (stack : Fin nImages → Image nQY nQX) (nPhiBins : ℤ)
    (QRange : ℝ × ℝ) (qCallibration : ℝ)
    (i : Fin nImages) (b : ℤ) : ℚ :=
  integrateStack (buildGeometry nQY nQX nPhiBins QRange qCallibration)
    stack i b

/-! ## Input validation

`compute_centers_of_mass` rejects inputs whose buffer is not
3-dimensional (`bufData.ndim != 3`) and then inputs whose buffer is not
C-contiguous (`!(image_stack.flags() & py::array::c_style)`).
`compute_crown_integral` checks only the dimensionality; it performs no
contiguity check and no check of `nPhiBins` or `QRange`.  Both throw
before touching any pixel.  The error taxonomy of the design is the
inductive type below; each model validation function receives everything
the corresponding source function could have inspected. -/

/-- Error taxonomy: wrong dimensionality, non-contiguous buffer, invalid
numeric parameters. -/
inductive ApiError where
  | ShapeError : ApiError
  | ContiguityError : ApiError
  | ConfigurationError : ApiError
deriving DecidableEq

/-- The validation prefix of `compute_centers_of_mass`: dimensionality
check, then contiguity check. -/
def comValidate (ndim : ℕ) (cContiguous : Bool) : Except ApiError Unit :=
  if ndim ≠ 3 then Except.error ApiError.ShapeError
  else if cContiguous = false then Except.error ApiError.ContiguityError
  else Except.ok ()

/-- The validation prefix of `compute_crown_integral`: only the
dimensionality check.  The contiguity flag and the numeric parameters are
available to the source function but are never inspected. -/
def crownValidate (ndim : ℕ) (cContiguous : Bool) (nPhiBins : ℤ)
    (QRange : ℝ × ℝ) : Except ApiError Unit :=
  if ndim ≠ 3 then Except.error ApiError.ShapeError
  else Except.ok ()

/-! ## Concrete inputs used in counterexamples and witnesses -/

/-- A 1×1×1 stack whose only pixel is `0`. -/
def comStackZero : Fin 1 → Image 1 1 := fun _ _ _ => 0

/-- A 1×1×2 stack: pixel `(0,0)` is `0`, pixel `(0,1)` is `-1`. -/
def comStackZeroNeg : Fin 1 → Image 1 2 := fun _ _ x => if x = 0 then 0 else -1

/-- A 1×1×1 stack whose only pixel is `5`. -/
def comStackFive : Fin 1 → Image 1 1 := fun _ _ _ => 5

/-- A 1×2×2 stack: pixel `(0,0)` is `5`, the rest are `0`. -/
def comStackCorner : Fin 1 → Image 2 2 :=
  fun _ y x => if y = 0 ∧ x = 0 then 5 else 0

/-! ## Theorems about `compute_centers_of_mass` -/

/-- Closed form of `compute_centers_of_mass`: the loop accumulators equal
the double sums over the qualifying pixels. -/
lemma compute_com_char {nImages nQY nQX : ℕ}
    (stack : Fin nImages → Image nQY nQX) (threshold : ℤ) (i : Fin nImages) :
    compute_centers_of_mass stack threshold i =
      if (∑ y : Fin nQY, ∑ x : Fin nQX,
            if threshold ≤ stack i y x then stack i y x else 0) = 0
      then (-1, -1)
      else (((∑ y : Fin nQY, ∑ x : Fin nQX,
                if threshold ≤ stack i y x then stack i y x * (y : ℤ)
                else 0 : ℤ) : ℚ) /
              ((∑ y : Fin nQY, ∑ x : Fin nQX,
                if threshold ≤ stack i y x then stack i y x else 0 : ℤ) : ℚ),
            ((∑ y : Fin nQY, ∑ x : Fin nQX,
                if threshold ≤ stack i y x then stack i y x * (x : ℤ)
                else 0 : ℤ) : ℚ) /
              ((∑ y : Fin nQY, ∑ x : Fin nQX,
                if threshold ≤ stack i y x then stack i y x else 0 : ℤ) : ℚ)) := by
  simp only [compute_centers_of_mass, comAccum_eq_sum]

/-- When the threshold is at least `1`, every qualifying pixel contributes
a positive weight, so the accumulated total is nonnegative. -/
lemma com_total_nonneg {nQY nQX : ℕ} (img : Image nQY nQX) (threshold : ℤ)
    (ht : 0 ≤ threshold) :
    0 ≤ ∑ y : Fin nQY, ∑ x : Fin nQX,
      if threshold ≤ img y x then img y x else 0 := by
  refine Finset.sum_nonneg fun y _ => Finset.sum_nonneg fun x _ => ?_
  by_cases h : threshold ≤ img y x
  · simpa [h] using ht.trans h
  · simp [h]

/-- C2: `compute_centers_of_mass` processes each image independently in
order; it accumulates `Σ p·y`, `Σ p·x`, `Σ p` over exactly the pixels
`p ≥ threshold` (pixels strictly below the threshold, including negative
ones, contribute nothing); total `0` yields the sentinel `(-1, -1)`,
otherwise `(sumY/total, sumX/total)` is emitted. -/
theorem centers_of_mass_spec {nImages nQY nQX : ℕ}
    (stack : Fin nImages → Image nQY nQX) (threshold : ℤ) (i : Fin nImages) :
    compute_centers_of_mass stack threshold i =
      (if (∑ y : Fin nQY, ∑ x : Fin nQX,
            if threshold ≤ stack i y x then stack i y x else 0) = 0
      then (-1, -1)
      else (((∑ y : Fin nQY, ∑ x : Fin nQX,
                if threshold ≤ stack i y x then stack i y x * (y : ℤ)
                else 0 : ℤ) : ℚ) /
              ((∑ y : Fin nQY, ∑ x : Fin nQX,
                if threshold ≤ stack i y x then stack i y x else 0 : ℤ) : ℚ),
            ((∑ y : Fin nQY, ∑ x : Fin nQX,
                if threshold ≤ stack i y x then stack i y x * (x : ℤ)
                else 0 : ℤ) : ℚ) /
              ((∑ y : Fin nQY, ∑ x : Fin nQX,
                if threshold ≤ stack i y x then stack i y x else 0 : ℤ) : ℚ))) ∧
    compute_centers_of_mass stack threshold i =
      compute_centers_of_mass (fun _ : Fin 1 => stack i) threshold 0 :=
  ⟨compute_com_char stack threshold i, rfl⟩

/-- If some pixel qualifies and the threshold is positive, the accumulated
total is positive. -/
lemma com_total_pos {nQY nQX : ℕ} (img : Image nQY nQX) (threshold : ℤ)
    (ht : 1 ≤ threshold) (y0 : Fin nQY) (x0 : Fin nQX)
    (h0 : threshold ≤ img y0 x0) :
    0 < ∑ y : Fin nQY, ∑ x : Fin nQX,
      if threshold ≤ img y x then img y x else 0 := by
  refine Finset.sum_pos' (fun y _ => Finset.sum_nonneg fun x _ => ?_)
    ⟨y0, Finset.mem_univ y0, Finset.sum_pos' (fun x _ => ?_)
      ⟨x0, Finset.mem_univ x0, ?_⟩⟩
  · by_cases h : threshold ≤ img y x
    · simpa [h] using (ht.trans h).trans' (by norm_num)
    · simp [h]
  · by_cases h : threshold ≤ img y0 x
    · simpa [h] using (ht.trans h).trans' (by norm_num)
    · simp [h]
  · simpa [h0] using lt_of_lt_of_le ht h0

/-- Weighted qualifying sums with nonnegative weights are nonnegative
(for a nonnegative threshold). -/
lemma com_weighted_nonneg {nQY nQX : ℕ} (img : Image nQY nQX) (threshold : ℤ)
    (ht : 0 ≤ threshold) (w : Fin nQY → Fin nQX → ℤ)
    (hw : ∀ y x, 0 ≤ w y x) :
    0 ≤ ∑ y : Fin nQY, ∑ x : Fin nQX,
      if threshold ≤ img y x then img y x * w y x else 0 := by
  refine Finset.sum_nonneg fun y _ => Finset.sum_nonneg fun x _ => ?_
  by_cases h : threshold ≤ img y x
  · simpa [h] using mul_nonneg (ht.trans h) (hw y x)
  · simp [h]

/-- Weighted qualifying sums with weights bounded by `k` are bounded by
`k` times the accumulated total (for a nonnegative threshold). -/
lemma com_weighted_le {nQY nQX : ℕ} (img : Image nQY nQX) (threshold : ℤ)
    (ht : 0 ≤ threshold) (w : Fin nQY → Fin nQX → ℤ) (k : ℤ)
    (hw : ∀ y x, w y x ≤ k) :
    (∑ y : Fin nQY, ∑ x : Fin nQX,
      if threshold ≤ img y x then img y x * w y x else 0) ≤
    (∑ y : Fin nQY, ∑ x : Fin nQX,
      if threshold ≤ img y x then img y x else 0) * k := by
  have step : ∀ (y : Fin nQY) (x : Fin nQX),
      (if threshold ≤ img y x then img y x * w y x else 0) ≤
      (if threshold ≤ img y x then img y x else 0) * k := by
    intro y x
    by_cases h : threshold ≤ img y x
    · simpa [h] using mul_le_mul_of_nonneg_left (hw y x) (ht.trans h)
    · simp [h]
  calc (∑ y : Fin nQY, ∑ x : Fin nQX,
          if threshold ≤ img y x then img y x * w y x else 0)
      ≤ ∑ y : Fin nQY, ∑ x : Fin nQX,
          (if threshold ≤ img y x then img y x else 0) * k :=
        Finset.sum_le_sum fun y _ => Finset.sum_le_sum fun x _ => step y x
    _ = (∑ y : Fin nQY, ∑ x : Fin nQX,
          if threshold ≤ img y x then img y x else 0) * k := by
        rw [Finset.sum_mul]
        exact Finset.sum_congr rfl fun y _ => (Finset.sum_mul _ _ _).symm

/-- C3 counterexample: with threshold `0`, the single pixel of
`comStackZero` has value `0 ≥ threshold` — so a pixel does meet the
threshold — and yet the output is the sentinel `(-1, -1)`, because the
accumulated total is `0`.  The claimed equivalence "sentinel ⟺ no pixel
met threshold" therefore fails for thresholds `≤ 0`. -/
theorem sentinel_iff_counterexample :
    (0 : ℤ) ≤ comStackZero 0 0 0 ∧
    compute_centers_of_mass comStackZero 0 0 = (-1, -1) := by
  decide

/-- C3 (amended): if every pixel is below the threshold the sentinel is
emitted, and for thresholds `≥ 1` the sentinel is emitted exactly when no
pixel meets the threshold.  (For thresholds `≤ 0`, qualifying pixels can
sum to zero and still produce the sentinel.) -/
theorem sentinel_characterization {nImages nQY nQX : ℕ}
    (stack : Fin nImages → Image nQY nQX) (threshold : ℤ) (i : Fin nImages) :
    ((∀ (y : Fin nQY) (x : Fin nQX), stack i y x < threshold) →
      compute_centers_of_mass stack threshold i = (-1, -1)) ∧
    (1 ≤ threshold →
      (compute_centers_of_mass stack threshold i = (-1, -1) ↔
        ∀ (y : Fin nQY) (x : Fin nQX), stack i y x < threshold)) := by
  have char := compute_com_char stack threshold i
  have sentinel_of_below :
      (∀ (y : Fin nQY) (x : Fin nQX), stack i y x < threshold) →
      compute_centers_of_mass stack threshold i = (-1, -1) := by
    intro hall
    have hT : (∑ y : Fin nQY, ∑ x : Fin nQX,
        if threshold ≤ stack i y x then stack i y x else 0) = 0 :=
      Finset.sum_eq_zero fun y _ => Finset.sum_eq_zero fun x _ => by
        simp [not_le.mpr (hall y x)]
    rw [char, if_pos hT]
  refine ⟨sentinel_of_below, fun ht => ⟨?_, sentinel_of_below⟩⟩
  intro hsent
  by_contra hnot
  push_neg at hnot
  obtain ⟨y0, x0, h0⟩ := hnot
  have hT := com_total_pos (stack i) threshold ht y0 x0 h0
  rw [char, if_neg (ne_of_gt hT)] at hsent
  have h1 : ((∑ y : Fin nQY, ∑ x : Fin nQX,
      if threshold ≤ stack i y x then stack i y x * (y : ℤ)
      else 0 : ℤ) : ℚ) /
      ((∑ y : Fin nQY, ∑ x : Fin nQX,
      if threshold ≤ stack i y x then stack i y x else 0 : ℤ) : ℚ) = -1 :=
    congrArg Prod.fst hsent
  have hnum : (0 : ℤ) ≤ ∑ y : Fin nQY, ∑ x : Fin nQX,
      if threshold ≤ stack i y x then stack i y x * (y : ℤ) else 0 :=
    com_weighted_nonneg (stack i) threshold (by linarith)
      (fun y _ => (y : ℤ)) (fun y _ => Int.ofNat_nonneg _)
  have hge : (0 : ℚ) ≤ ((∑ y : Fin nQY, ∑ x : Fin nQX,
      if threshold ≤ stack i y x then stack i y x * (y : ℤ)
      else 0 : ℤ) : ℚ) /
      ((∑ y : Fin nQY, ∑ x : Fin nQX,
      if threshold ≤ stack i y x then stack i y x else 0 : ℤ) : ℚ) :=
    div_nonneg (by exact_mod_cast hnum) (by exact_mod_cast hT.le)
  rw [h1] at hge
  norm_num at hge

/-- Witness for C3's amended theorem at a concrete input: the all-zero
`1×1×1` stack with threshold `1`. -/
theorem sentinel_characterization_witness :
    compute_centers_of_mass comStackZero 1 0 = (-1, -1) ∧
    (compute_centers_of_mass comStackZero 1 0 = (-1, -1) ↔
      ∀ (y : Fin 1) (x : Fin 1), comStackZero 0 y x < 1) :=
  ⟨(sentinel_characterization comStackZero 1 0).1 (by decide),
   (sentinel_characterization comStackZero 1 0).2 (by norm_num)⟩

/-- C6 counterexample: in `comStackZeroNeg` with threshold `0`, pixel
`(0,0)` (value `0`) is the unique pixel meeting the threshold and pixel
`(0,1)` (value `-1`) is strictly below it, yet the output is not `(0, 0)`
(it is the sentinel, because the qualifying pixel's value is `0`). -/
theorem single_pixel_counterexample :
    (0 : ℤ) ≤ comStackZeroNeg 0 0 0 ∧
    comStackZeroNeg 0 0 1 < 0 ∧
    compute_centers_of_mass comStackZeroNeg 0 0 ≠ ((0 : ℚ), (0 : ℚ)) := by
  decide

/-- C6 (amended): if exactly one pixel `(y0, x0)` meets the threshold,
and its value is nonzero, the centroid is exactly `(y0, x0)`. -/
theorem single_pixel_centroid {nImages nQY nQX : ℕ}
    (stack : Fin nImages → Image nQY nQX) (threshold : ℤ) (i : Fin nImages)
    (y0 : Fin nQY) (x0 : Fin nQX)
    (hq : threshold ≤ stack i y0 x0) (hnz : stack i y0 x0 ≠ 0)
    (hothers : ∀ (y : Fin nQY) (x : Fin nQX),
      (y, x) ≠ (y0, x0) → stack i y x < threshold) :
    compute_centers_of_mass stack threshold i = ((y0 : ℚ), (x0 : ℚ)) := by
  have hsum : ∀ w : Fin nQY → Fin nQX → ℤ,
      (∑ y : Fin nQY, ∑ x : Fin nQX,
        if threshold ≤ stack i y x then stack i y x * w y x else 0) =
      stack i y0 x0 * w y0 x0 := by
    intro w
    rw [Finset.sum_eq_single y0 (fun y _ hy => Finset.sum_eq_zero fun x _ => by
          simp [not_le.mpr (hothers y x (by simp [Prod.ext_iff, hy]))])
        (fun h => absurd (Finset.mem_univ y0) h)]
    rw [Finset.sum_eq_single x0 (fun x _ hx => by
          simp [not_le.mpr (hothers y0 x (by simp [Prod.ext_iff, hx]))])
        (fun h => absurd (Finset.mem_univ x0) h)]
    rw [if_pos hq]
  have htot : (∑ y : Fin nQY, ∑ x : Fin nQX,
      if threshold ≤ stack i y x then stack i y x else 0) =
      stack i y0 x0 := by
    have := hsum fun _ _ => 1
    simpa using this
  have hcast : ((stack i y0 x0 : ℤ) : ℚ) ≠ 0 := Int.cast_ne_zero.mpr hnz
  rw [compute_com_char, htot, hsum fun y _ => (y : ℤ),
    hsum fun _ x => (x : ℤ), if_neg hnz]
  refine Prod.ext ?_ ?_ <;> push_cast <;>
    · field_simp

/-- Witness for C6's amended theorem: the `1×1×1` stack with single pixel
`5` and threshold `1` yields centroid `(0, 0)` exactly. -/
theorem single_pixel_centroid_witness :
    compute_centers_of_mass comStackFive 1 0 = ((0 : ℚ), (0 : ℚ)) :=
  single_pixel_centroid comStackFive 1 0 0 0 (by decide) (by decide)
    (by decide)

/-- C10: for a positive threshold, every non-sentinel centroid lies in the
frame: `0 ≤ y ≤ nQY - 1` and `0 ≤ x ≤ nQX - 1` (the output is a convex
combination of pixel coordinates with positive weights). -/
theorem centroid_in_bounds {nImages nQY nQX : ℕ}
    (stack : Fin nImages → Image nQY nQX) (threshold : ℤ) (i : Fin nImages)
    (ht : 1 ≤ threshold)
    (hs : compute_centers_of_mass stack threshold i ≠ (-1, -1)) :
    0 ≤ (compute_centers_of_mass stack threshold i).1 ∧
    (compute_centers_of_mass stack threshold i).1 ≤ (nQY : ℚ) - 1 ∧
    0 ≤ (compute_centers_of_mass stack threshold i).2 ∧
    (compute_centers_of_mass stack threshold i).2 ≤ (nQX : ℚ) - 1 := by
  have ht0 : (0 : ℤ) ≤ threshold := by linarith
  have char := compute_com_char stack threshold i
  by_cases hT : (∑ y : Fin nQY, ∑ x : Fin nQX,
      if threshold ≤ stack i y x then stack i y x else 0) = 0
  · rw [char, if_pos hT] at hs
    exact absurd rfl hs
  · have hTpos : (0 : ℤ) < ∑ y : Fin nQY, ∑ x : Fin nQX,
        if threshold ≤ stack i y x then stack i y x else 0 :=
      lt_of_le_of_ne (com_total_nonneg (stack i) threshold ht0) (Ne.symm hT)
    have hTq : (0 : ℚ) < ((∑ y : Fin nQY, ∑ x : Fin nQX,
        if threshold ≤ stack i y x then stack i y x else 0 : ℤ) : ℚ) := by
      exact_mod_cast hTpos
    rw [char, if_neg hT]
    have bound : ∀ w : Fin nQY → Fin nQX → ℤ, ∀ k : ℤ,
        (∀ y x, 0 ≤ w y x) → (∀ y x, w y x ≤ k) →
        0 ≤ ((∑ y : Fin nQY, ∑ x : Fin nQX,
            if threshold ≤ stack i y x then stack i y x * w y x
            else 0 : ℤ) : ℚ) /
          ((∑ y : Fin nQY, ∑ x : Fin nQX,
            if threshold ≤ stack i y x then stack i y x else 0 : ℤ) : ℚ) ∧
        ((∑ y : Fin nQY, ∑ x : Fin nQX,
            if threshold ≤ stack i y x then stack i y x * w y x
            else 0 : ℤ) : ℚ) /
          ((∑ y : Fin nQY, ∑ x : Fin nQX,
            if threshold ≤ stack i y x then stack i y x else 0 : ℤ) : ℚ) ≤
          (k : ℚ) := by
      intro w k hw hwk
      have hnum := com_weighted_nonneg (stack i) threshold ht0 w hw
      have hle := com_weighted_le (stack i) threshold ht0 w k hwk
      constructor
      · exact div_nonneg (by exact_mod_cast hnum) hTq.le
      · rw [div_le_iff₀ hTq]
        calc ((∑ y : Fin nQY, ∑ x : Fin nQX,
              if threshold ≤ stack i y x then stack i y x * w y x
              else 0 : ℤ) : ℚ)
            ≤ ((((∑ y : Fin nQY, ∑ x : Fin nQX,
              if threshold ≤ stack i y x then stack i y x else 0) * k : ℤ)) : ℚ) := by
              exact_mod_cast hle
          _ = (k : ℚ) * ((∑ y : Fin nQY, ∑ x : Fin nQX,
              if threshold ≤ stack i y x then stack i y x else 0 : ℤ) : ℚ) := by
              push_cast; ring
    have hy := bound (fun y _ => (y : ℤ)) ((nQY : ℤ) - 1)
      (fun y _ => Int.ofNat_nonneg _)
      (fun y x => by
        show (y : ℤ) ≤ (nQY : ℤ) - 1
        have := y.isLt; omega)
    have hx := bound (fun _ x => (x : ℤ)) ((nQX : ℤ) - 1)
      (fun _ x => Int.ofNat_nonneg _)
      (fun y x => by
        show (x : ℤ) ≤ (nQX : ℤ) - 1
        have := x.isLt; omega)
    refine ⟨hy.1, ?_, hx.1, ?_⟩
    · have := hy.2
      push_cast at this ⊢
      linarith
    · have := hx.2
      push_cast at this ⊢
      linarith

/-- Witness for C10 at a concrete input: `comStackCorner` with threshold
`1` yields the in-bounds centroid `(0, 0)`. -/
theorem centroid_in_bounds_witness :
    0 ≤ (compute_centers_of_mass comStackCorner 1 0).1 ∧
    (compute_centers_of_mass comStackCorner 1 0).1 ≤ (2 : ℚ) - 1 ∧
    0 ≤ (compute_centers_of_mass comStackCorner 1 0).2 ∧
    (compute_centers_of_mass comStackCorner 1 0).2 ≤ (2 : ℚ) - 1 :=
  centroid_in_bounds comStackCorner 1 0 (by norm_num)
    (by
      rw [compute_com_char]
      norm_num [Fin.sum_univ_two, comStackCorner, Prod.ext_iff])

/-! ## Theorems about input validation -/

/-- C4 counterexample: a 3-dimensional but non-contiguous input passes
`compute_crown_integral`'s validation without any error, although
`compute_centers_of_mass` rejects the same buffer with a ContiguityError.
The claimed shared contiguity precondition is not enforced by
`compute_crown_integral`. -/
theorem crown_contiguity_counterexample :
    crownValidate 3 false 4 (0, 1) = Except.ok () ∧
    comValidate 3 false = Except.error ApiError.ContiguityError :=
  ⟨rfl, rfl⟩

/-- C4 (amended): `compute_crown_integral` validates only the
dimensionality of its input — it never raises a ContiguityError and
accepts exactly the 3-dimensional buffers — whereas
`compute_centers_of_mass` additionally requires C-contiguity. -/
theorem crown_validation_characterization (ndim : ℕ) (c : Bool)
    (nPhiBins : ℤ) (QRange : ℝ × ℝ) :
    crownValidate ndim c nPhiBins QRange ≠
      Except.error ApiError.ContiguityError ∧
    (crownValidate ndim c nPhiBins QRange = Except.ok () ↔ ndim = 3) ∧
    (comValidate ndim c = Except.ok () ↔ ndim = 3 ∧ c = true) := by
  unfold crownValidate comValidate
  by_cases h : ndim = 3 <;> cases c <;> simp [h]

/-- C5: the legacy source performs no configuration validation at all: a
call with `nPhiBins = 0` (and likewise with an inverted `QRange`) passes
validation with no ConfigurationError and the computation proceeds. -/
theorem crown_no_config_validation :
    crownValidate 3 true 0 (0, 0) = Except.ok () ∧
    crownValidate 3 true (-1) (1, 0) = Except.ok () :=
  ⟨rfl, rfl⟩

/-! ## Theorems about the accumulation pass of `compute_crown_integral` -/

/-- A trivial 1×1 geometry: the single pixel is valid and assigned
bin 0. -/
def geomTrivial : PolarGeometry 1 1 :=
  { valid := fun _ _ => true, binIndex := fun _ _ => 0 }

/-- C1: per image the bin accumulators start from zero (the output of
image `i` is the output on the one-image stack holding only image `i`);
bin `b` collects exactly the samples of valid pixels with nonnegative
value assigned to `b`, the output is `sum/count` for a positive count and
`0.0` otherwise; and the bin counts over `[0, nPhiBins)` add up to the
number of valid pixels with nonnegative sample. -/
theorem crown_accumulation_spec {nImages nQY nQX : ℕ}
    (geom : PolarGeometry nQY nQX) (stack : Fin nImages → Image nQY nQX)
    (nPhiBins : ℤ) (i : Fin nImages) (b : ℤ)
    (hbin : ∀ (y : Fin nQY) (x : Fin nQX), geom.valid y x = true →
      geom.binIndex y x ∈ Finset.Ico (0 : ℤ) nPhiBins) :
    integrateStack geom stack i b =
      (if 0 < (∑ y : Fin nQY, ∑ x : Fin nQX,
          if geom.valid y x = true ∧ 0 ≤ stack i y x ∧ geom.binIndex y x = b
          then 1 else 0 : ℕ)
      then ((∑ y : Fin nQY, ∑ x : Fin nQX,
          if geom.valid y x = true ∧ 0 ≤ stack i y x ∧ geom.binIndex y x = b
          then stack i y x else 0 : ℤ) : ℚ) /
          ((∑ y : Fin nQY, ∑ x : Fin nQX,
          if geom.valid y x = true ∧ 0 ≤ stack i y x ∧ geom.binIndex y x = b
          then 1 else 0 : ℕ) : ℚ)
      else 0) ∧
    (∑ b' ∈ Finset.Ico (0 : ℤ) nPhiBins, (crownAccum geom (stack i)).2 b') =
      (Finset.univ.filter (fun p : Fin nQY × Fin nQX =>
        geom.valid p.1 p.2 = true ∧ 0 ≤ stack i p.1 p.2)).card ∧
    integrateStack geom stack i b =
      integrateStack geom (fun _ : Fin 1 => stack i) 0 b := by
  refine ⟨?_, ?_, rfl⟩
  · rw [integrateStack]
    rw [(crownAccum_eq_sum geom (stack i) b).1,
      (crownAccum_eq_sum geom (stack i) b).2]
  · have swap : (∑ b' ∈ Finset.Ico (0 : ℤ) nPhiBins,
        (crownAccum geom (stack i)).2 b') =
        ∑ y : Fin nQY, ∑ x : Fin nQX, ∑ b' ∈ Finset.Ico (0 : ℤ) nPhiBins,
          if geom.valid y x = true ∧ 0 ≤ stack i y x ∧
              geom.binIndex y x = b' then 1 else 0 := by
      rw [Finset.sum_congr rfl fun b' _ => (crownAccum_eq_sum geom (stack i) b').2]
      rw [Finset.sum_comm]
      exact Finset.sum_congr rfl fun y _ => Finset.sum_comm
    rw [swap]
    have inner : ∀ (y : Fin nQY) (x : Fin nQX),
        (∑ b' ∈ Finset.Ico (0 : ℤ) nPhiBins,
          if geom.valid y x = true ∧ 0 ≤ stack i y x ∧
              geom.binIndex y x = b' then 1 else 0) =
        (if geom.valid y x = true ∧ 0 ≤ stack i y x then 1 else 0 : ℕ) := by
      intro y x
      by_cases hC : geom.valid y x = true ∧ 0 ≤ stack i y x
      · have : ∀ b' : ℤ,
            (if geom.valid y x = true ∧ 0 ≤ stack i y x ∧
                geom.binIndex y x = b' then 1 else 0 : ℕ) =
            (if geom.binIndex y x = b' then 1 else 0) := by
          intro b'
          by_cases hb' : geom.binIndex y x = b' <;> simp [hC.1, hC.2, hb']
        rw [Finset.sum_congr rfl fun b' _ => this b']
        rw [Finset.sum_ite_eq (Finset.Ico (0 : ℤ) nPhiBins)
          (geom.binIndex y x) (fun _ => (1 : ℕ))]
        rw [if_pos (hbin y x hC.1), if_pos hC]
      · rw [if_neg hC]
        refine Finset.sum_eq_zero fun b' _ => ?_
        rw [if_neg]
        intro h
        exact hC ⟨h.1, h.2.1⟩
    rw [Finset.sum_congr rfl fun y _ => Finset.sum_congr rfl fun x _ => inner y x]
    rw [Finset.card_filter]
    rw [← Finset.univ_product_univ, Finset.sum_product]

/-- Witness for C1 at a concrete input: the trivial 1×1 geometry, one
image with single sample `5`, one bin. -/
theorem crown_accumulation_spec_witness :
    integrateStack geomTrivial comStackFive 0 0 =
      (if 0 < (∑ y : Fin 1, ∑ x : Fin 1,
          if geomTrivial.valid y x = true ∧ 0 ≤ comStackFive 0 y x ∧
              geomTrivial.binIndex y x = 0
          then 1 else 0 : ℕ)
      then ((∑ y : Fin 1, ∑ x : Fin 1,
          if geomTrivial.valid y x = true ∧ 0 ≤ comStackFive 0 y x ∧
              geomTrivial.binIndex y x = 0
          then comStackFive 0 y x else 0 : ℤ) : ℚ) /
          ((∑ y : Fin 1, ∑ x : Fin 1,
          if geomTrivial.valid y x = true ∧ 0 ≤ comStackFive 0 y x ∧
              geomTrivial.binIndex y x = 0
          then 1 else 0 : ℕ) : ℚ)
      else 0) ∧
    (∑ b' ∈ Finset.Ico (0 : ℤ) 1, (crownAccum geomTrivial (comStackFive 0)).2 b') =
      (Finset.univ.filter (fun p : Fin 1 × Fin 1 =>
        geomTrivial.valid p.1 p.2 = true ∧ 0 ≤ comStackFive 0 p.1 p.2)).card ∧
    integrateStack geomTrivial comStackFive 0 0 =
      integrateStack geomTrivial (fun _ : Fin 1 => comStackFive 0) 0 0 :=
  crown_accumulation_spec geomTrivial comStackFive 1 0 0 (by decide)

/-! ## Theorems about the geometry pass -/

/-- `atan2 0 1 = 0` (the positive x-axis). -/
lemma atan2_zero_one : atan2 0 1 = 0 := by
  have e : (⟨(1 : ℝ), (0 : ℝ)⟩ : ℂ) = 1 := by
    refine Complex.ext ?_ ?_ <;> simp
  rw [atan2, e, Complex.arg_one]

/-- `atan2 0 (-2) = π` (the negative x-axis). -/
lemma atan2_zero_negtwo : atan2 0 (-2) = Real.pi := by
  have e : (⟨(-2 : ℝ), (0 : ℝ)⟩ : ℂ) = ((-2 : ℝ) : ℂ) := by
    refine Complex.ext ?_ ?_ <;> simp
  rw [atan2, e, Complex.arg_ofReal_of_neg (by norm_num)]

/-- `atan2 1 0 = π/2` (the positive y-axis). -/
lemma atan2_one_zero : atan2 1 0 = Real.pi / 2 := by
  have e : (⟨(0 : ℝ), (1 : ℝ)⟩ : ℂ) = Complex.I := by
    refine Complex.ext ?_ ?_ <;> simp
  rw [atan2, e, Complex.arg_I]

/-- The raw (unwrapped) angle lies in `(-180, 180]`. -/
lemma pixelsPhiRaw_mem (nQY nQX iQY iQX : ℕ) :
    -180 < pixelsPhiRaw nQY nQX iQY iQX ∧
    pixelsPhiRaw nQY nQX iQY iQX ≤ 180 := by
  have hπ := Real.pi_pos
  simp only [pixelsPhiRaw, atan2]
  set t := Complex.arg ⟨(((iQX : ℤ) - (beamCenterQX nQX : ℤ) : ℤ) : ℝ),
    (((iQY : ℤ) - (beamCenterQY nQY : ℤ) : ℤ) : ℝ)⟩ with ht
  have h1 : -Real.pi < t := Complex.neg_pi_lt_arg _
  have h2 : t ≤ Real.pi := Complex.arg_le_pi _
  constructor
  · rw [lt_div_iff₀ hπ]
    nlinarith
  · rw [div_le_iff₀ hπ]
    nlinarith

/-- The wrapped angle lies in `[0, 360)`. -/
lemma pixelsPhi_mem (nQY nQX iQY iQX : ℕ) :
    0 ≤ pixelsPhi nQY nQX iQY iQX ∧ pixelsPhi nQY nQX iQY iQX < 360 := by
  rcases pixelsPhiRaw_mem nQY nQX iQY iQX with ⟨h1, h2⟩
  rw [pixelsPhi]
  by_cases h : pixelsPhiRaw nQY nQX iQY iQX < 0
  · rw [if_pos h]
    constructor <;> linarith
  · rw [if_neg h]
    push_neg at h
    constructor <;> linarith

/-- Concrete scenario: in a 4×4 frame the pixel `(2,3)` has raw angle
exactly `0`. -/
lemma pixelsPhiRaw_two_three : pixelsPhiRaw 4 4 2 3 = 0 := by
  simp only [pixelsPhiRaw, beamCenterQY, beamCenterQX]
  norm_num [atan2_zero_one]

/-- Concrete scenario: in a 4×4 frame the pixel `(2,0)` has raw angle
exactly `180`. -/
lemma pixelsPhiRaw_two_zero : pixelsPhiRaw 4 4 2 0 = 180 := by
  simp only [pixelsPhiRaw, beamCenterQY, beamCenterQX]
  norm_num [atan2_zero_negtwo]
  rw [mul_comm, mul_div_assoc, div_self Real.pi_ne_zero, mul_one]

/-- Concrete scenario: in a 4×4 frame the pixel `(3,2)` has raw angle
exactly `90`. -/
lemma pixelsPhiRaw_three_two : pixelsPhiRaw 4 4 3 2 = 90 := by
  simp only [pixelsPhiRaw, beamCenterQY, beamCenterQX]
  norm_num [atan2_one_zero]
  field_simp
  ring

/-- Concrete scenario: wrapped angle of pixel `(2,3)` in a 4×4 frame. -/
lemma pixelsPhi_two_three : pixelsPhi 4 4 2 3 = 0 := by
  rw [pixelsPhi, pixelsPhiRaw_two_three]
  norm_num

/-- Concrete scenario: wrapped angle of pixel `(2,0)` in a 4×4 frame —
`180` is not wrapped. -/
lemma pixelsPhi_two_zero : pixelsPhi 4 4 2 0 = 180 := by
  rw [pixelsPhi, pixelsPhiRaw_two_zero]
  norm_num

/-- Concrete scenario: wrapped angle of pixel `(3,2)` in a 4×4 frame. -/
lemma pixelsPhi_three_two : pixelsPhi 4 4 3 2 = 90 := by
  rw [pixelsPhi, pixelsPhiRaw_three_two]
  norm_num

/-- `std::clamp` into a well-ordered interval is `max lo (min v hi)`. -/
lemma stdClamp_eq_max_min (v lo hi : ℤ) (h : lo ≤ hi) :
    stdClamp v lo hi = max lo (min v hi) := by
  rw [stdClamp]
  split_ifs <;> omega

/-- C8: the angle of every pixel is `atan2(y-cy, x-cx) * 180/π` wrapped by
`+360` when negative into `[0, 360)`; `180` itself is unaffected by the
wrap; the beam centre uses truncating division (`4/2 = 2`, `5/2 = 2`); and
in a 4×4 frame the pixel `(2,3)` has radius exactly `1 * qCallibration`
and angle exactly `0` degrees. -/
theorem angle_radius_spec (nQY nQX iQY iQX : ℕ) (qCallibration : ℝ) :
    0 ≤ pixelsPhi nQY nQX iQY iQX ∧
    pixelsPhi nQY nQX iQY iQX < 360 ∧
    beamCenterQY 4 = 2 ∧ beamCenterQY 5 = 2 ∧
    pixelsQ 4 4 qCallibration 2 3 = qCallibration ∧
    pixelsPhi 4 4 2 3 = 0 ∧
    pixelsPhi 4 4 2 0 = 180 := by
  refine ⟨(pixelsPhi_mem nQY nQX iQY iQX).1, (pixelsPhi_mem nQY nQX iQY iQX).2,
    rfl, rfl, ?_, pixelsPhi_two_three, pixelsPhi_two_zero⟩
  simp only [pixelsQ, beamCenterQY, beamCenterQX]
  norm_num

/-- C7: for a positive bin count, the bin index of every pixel is
`clamp(floor(angle / (360/nPhiBins)), 0, nPhiBins-1)` (the C truncation
coincides with `floor` because the wrapped angle is nonnegative), hence
lies in `[0, nPhiBins-1]`; and with `nPhiBins = 4` the pixel of angle
exactly `90` degrees lands in bin `1`, not bin `2`. -/
theorem bin_index_spec (nQY nQX : ℕ) (nPhiBins : ℤ) (iQY iQX : ℕ)
    (hn : 0 < nPhiBins) :
    binIndicies nQY nQX nPhiBins iQY iQX =
      max 0 (min ⌊pixelsPhi nQY nQX iQY iQX / (360 / (nPhiBins : ℝ))⌋
        (nPhiBins - 1)) ∧
    0 ≤ binIndicies nQY nQX nPhiBins iQY iQX ∧
    binIndicies nQY nQX nPhiBins iQY iQX < nPhiBins ∧
    pixelsPhi 4 4 3 2 = 90 ∧
    binIndicies 4 4 4 3 2 = 1 := by
  have hden : (0 : ℝ) < 360 / (nPhiBins : ℝ) :=
    div_pos (by norm_num) (by exact_mod_cast hn)
  have hq : 0 ≤ pixelsPhi nQY nQX iQY iQX / (360 / (nPhiBins : ℝ)) :=
    div_nonneg (pixelsPhi_mem nQY nQX iQY iQX).1 hden.le
  have htr : realTrunc (pixelsPhi nQY nQX iQY iQX / (360 / (nPhiBins : ℝ))) =
      ⌊pixelsPhi nQY nQX iQY iQX / (360 / (nPhiBins : ℝ))⌋ := if_pos hq
  have hfl : 0 ≤ ⌊pixelsPhi nQY nQX iQY iQX / (360 / (nPhiBins : ℝ))⌋ :=
    Int.floor_nonneg.mpr hq
  have hconc : binIndicies 4 4 4 3 2 = 1 := by
    rw [binIndicies, pixelsPhi_three_two]
    norm_num [realTrunc, stdClamp]
  refine ⟨?_, ?_, ?_, pixelsPhi_three_two, hconc⟩
  · rw [binIndicies, htr]
    exact stdClamp_eq_max_min _ _ _ (by omega)
  · rw [binIndicies, htr, stdClamp]
    split_ifs <;> omega
  · rw [binIndicies, htr, stdClamp]
    split_ifs <;> omega

/-- Witness for C7 at a concrete input (`nPhiBins = 4`, pixel `(3,2)` of a
4×4 frame). -/
theorem bin_index_spec_witness :
    binIndicies 4 4 4 3 2 =
      max 0 (min ⌊pixelsPhi 4 4 3 2 / (360 / ((4 : ℤ) : ℝ))⌋ ((4 : ℤ) - 1)) ∧
    0 ≤ binIndicies 4 4 4 3 2 ∧
    binIndicies 4 4 4 3 2 < 4 ∧
    pixelsPhi 4 4 3 2 = 90 ∧
    binIndicies 4 4 4 3 2 = 1 :=
  bin_index_spec 4 4 4 3 2 (by norm_num)

/-- C9 counterexample: with `QRange = [0, 0]` and `qCallibration = 0`, in
a 1×2 frame the pixel `(0,0)` is valid although the beam centre is
`(0,1)` — the claimed "only the beam-centre pixel is valid" fails when
the calibration factor is zero. -/
theorem qrange_zero_counterexample :
    validPixels 1 2 0 (0, 0) 0 0 = true ∧ (0 : ℕ) ≠ beamCenterQX 2 := by
  constructor
  · simp only [validPixels, pixelsQ, beamCenterQY, beamCenterQX,
      decide_eq_true_eq]
    norm_num
  · decide

/-- C9 (amended): with `QRange = [0, 0]` and a nonzero calibration factor,
a pixel is valid exactly when it is the beam-centre pixel. -/
theorem qrange_zero_valid_iff (nQY nQX : ℕ) (qCallibration : ℝ)
    (iQY iQX : ℕ) (hq : qCallibration ≠ 0) :
    (validPixels nQY nQX qCallibration (0, 0) iQY iQX = true ↔
      iQY = beamCenterQY nQY ∧ iQX = beamCenterQX nQX) := by
  simp only [validPixels, pixelsQ, decide_eq_true_eq]
  set QY : ℤ := (iQY : ℤ) - (beamCenterQY nQY : ℤ) with hQY
  set QX : ℤ := (iQX : ℤ) - (beamCenterQX nQX : ℤ) with hQX
  have hs : (0 : ℝ) ≤ ((QY * QY + QX * QX : ℤ) : ℝ) := by
    have : (0 : ℤ) ≤ QY * QY + QX * QX :=
      add_nonneg (mul_self_nonneg QY) (mul_self_nonneg QX)
    exact_mod_cast this
  constructor
  · rintro ⟨h1, h2⟩
    have hzero : Real.sqrt ((QY * QY + QX * QX : ℤ) : ℝ) * qCallibration = 0 :=
      le_antisymm h2 h1
    rcases mul_eq_zero.mp hzero with h | h
    · have hle : ((QY * QY + QX * QX : ℤ) : ℝ) ≤ 0 :=
        Real.sqrt_eq_zero'.mp h
      have hz : QY * QY + QX * QX ≤ 0 := by exact_mod_cast hle
      have hQYz : QY = 0 := by nlinarith
      have hQXz : QX = 0 := by nlinarith
      constructor <;> omega
    · exact absurd h hq
  · rintro ⟨h1, h2⟩
    have hQYz : QY = 0 := by omega
    have hQXz : QX = 0 := by omega
    rw [hQYz, hQXz]
    norm_num

/-- Witness for C9's amended theorem at a concrete input: a 1×1 frame with
calibration factor `1`; the single pixel `(0,0)` is the beam centre and is
valid. -/
theorem qrange_zero_valid_iff_witness :
    validPixels 1 1 1 (0, 0) 0 0 = true ↔
      (0 : ℕ) = beamCenterQY 1 ∧ (0 : ℕ) = beamCenterQX 1 :=
  qrange_zero_valid_iff 1 1 1 0 0 one_ne_zero

end BioSED
